import Mathlib

set_option maxRecDepth 8000

/-!
Verification of the BMP loader / luminance converter in `src/main.c`
(`load_bmp` and the argument check in `main`).

The development has three parts:

1. An exact model of IEEE-754 double-precision arithmetic restricted to
   what line 131 of the source needs: nonnegative values, round to
   nearest with ties to even at 53 significant bits, no overflow and no
   subnormals (every nonzero value handled lies in `[2^-10, 2^9]`).
   Doubles are represented as exact rational numbers.

2. A byte-level model of `load_bmp`: the input file is a `List ℕ` of
   bytes, headers are parsed little-endian (the packed structs of the C
   source read on a little-endian host), `int` arithmetic wraps modulo
   `2^32`, `size_t` conversion is modelled explicitly, and the outcome
   records the return value, the error branch taken, the values stored
   through the out-parameters and which resources were released.

3. Theorems for the claims, with concrete witness files.
-/

/-! ### Part 1: exact model of the double-precision luminance formula -/

/-- Fuel-driven base-2 logarithm, structurally recursive so that the
kernel can evaluate it on literals. -/
def log2fuel : ℕ → ℕ → ℕ
  | 0, _ => 0
  | f+1, n => if 2 ≤ n then log2fuel f (n / 2) + 1 else 0

/-- Base-2 logarithm: for `1 ≤ n`, `2 ^ nlog2 n ≤ n < 2 ^ (nlog2 n + 1)`. -/
def nlog2 (n : ℕ) : ℕ := log2fuel n n

/-- Round a rational to the nearest integer, ties to even. -/
def rhe (q : ℚ) : ℤ :=
  if q - ⌊q⌋ < 1/2 then ⌊q⌋
  else if (1:ℚ)/2 < q - ⌊q⌋ then ⌊q⌋ + 1
  else if 2 ∣ ⌊q⌋ then ⌊q⌋ else ⌊q⌋ + 1

/-- Integer power of two as a rational, for signed exponents. -/
def pow2 (e : ℤ) : ℚ :=
  if 0 ≤ e then ((2 ^ e.toNat : ℕ) : ℚ) else ((2 ^ (-e).toNat : ℕ) : ℚ)⁻¹

/-- Binade of a positive rational: the unique `e` with `2^e ≤ q < 2^(e+1)`. -/
def qexp (q : ℚ) : ℤ :=
  if q < pow2 ((nlog2 q.num.toNat : ℤ) - (nlog2 q.den : ℤ)) then
    (nlog2 q.num.toNat : ℤ) - (nlog2 q.den : ℤ) - 1
  else
    (nlog2 q.num.toNat : ℤ) - (nlog2 q.den : ℤ)

/-- Rounding of a nonnegative rational to the nearest IEEE-754 double
(53 significant bits, round to nearest, ties to even; exponent range
unbounded, which agrees with the bounded format on the magnitudes that
occur in the luminance computation). -/
def rnd (q : ℚ) : ℚ :=
  if q ≤ 0 then 0
  else pow2 (qexp q - 52) * rhe (q * pow2 (52 - qexp q))

/-- Value of the C double literal `0.299` (nearest double to 299/1000). -/
def c299 : ℚ := rnd (299/1000)

/-- Value of the C double literal `0.587`. -/
def c587 : ℚ := rnd (587/1000)

/-- Value of the C double literal `0.114`. -/
def c114 : ℚ := rnd (114/1000)

/-- Exact value of the double expression `0.299 * r + 0.587 * g + 0.114 * b`
computed left to right with one IEEE rounding per operation, as on
line 131 of `src/main.c`. Conversions of the `uint8_t` channels to
double are exact. -/
def lumQ (r g b : ℕ) : ℚ :=
  rnd (rnd (rnd (c299 * r) + rnd (c587 * g)) + rnd (c114 * b))

/-- Luminance byte produced by line 131 of `src/main.c`: the double sum
cast to `uint8_t`, which truncates toward zero (the value is proved to
lie inside `[0, 256)`, so the cast is defined behavior). -/
def lum (r g b : ℕ) : ℕ := (⌊lumQ r g b⌋).toNat

/-! ### Part 2: byte-level model of `load_bmp` -/

/-- Little-endian value of the `n` bytes of `bs` starting at `off`
(bytes past the end read as 0; every use is guarded by a length check,
matching `fread` failing on a short header). -/
def readLE (bs : List ℕ) (off : ℕ) : ℕ → ℕ
  | 0 => 0
  | n+1 => bs.getD off 0 + 256 * readLE bs (off+1) n

/-- Reinterpret a natural number as a two's-complement signed 32-bit
value, as the packed `int32_t` fields of the headers do. -/
def toInt32 (n : ℕ) : ℤ :=
  if n % 2^32 < 2^31 then ((n % 2^32 : ℕ) : ℤ) else ((n % 2^32 : ℕ) : ℤ) - 2^32

/-- Wrap-around of signed 32-bit `int` arithmetic (two's complement). -/
def wrap32 (z : ℤ) : ℤ := (z + 2^31) % 2^32 - 2^31

/-- Conversion of a (possibly negative) `int` value to `size_t`
(64-bit), as happens at the `malloc` and `fread` call sites. -/
def sizeT (z : ℤ) : ℕ := (z % 2^64).toNat

/-- Padded row byte count, line 88 of `src/main.c`:
`(*width * 3 + 3) & (~3)` in `int` arithmetic. On two's complement,
masking with `~3` clears the two low bits, i.e. subtracts the
nonnegative remainder modulo 4. -/
def row_padded (w : ℤ) : ℤ :=
  let a := wrap32 (wrap32 (w * 3) + 3)
  a - a % 4

/-- Failure branches of `load_bmp` (the C function prints a distinct
diagnostic per branch and returns -1; the constructor records which
branch fired). `openFailure` of the spec is not modelled: the model
takes the file contents, not a path. -/
inductive LoadError
  | truncatedFileHeader
  | badMagic
  | truncatedInfoHeader
  | unsupportedDepth
  | unsupportedCompression
  | allocPlane
  | allocRowBuf
  | truncatedPixels
  deriving DecidableEq, Repr

/-- Observable outcome of a call to `load_bmp`: the return value, the
error branch taken (if any), the values stored through the three
out-parameters (`none` = never written; for `image_out`, the inner
option is `none` when the stored pointer is NULL), and which resources
were released before returning. -/
structure LoadOutcome where
  ret : ℤ
  err : Option LoadError
  width_out : Option ℤ
  height_out : Option ℤ
  image_out : Option (Option (List ℕ))
  plane_freed : Bool
  row_buf_freed : Bool
  file_closed : Bool
  deriving DecidableEq, Repr

/-- Inner loop of lines 126-132: convert one scratch row of BGR
triplets and store the luminance bytes at `dstBase`, `dstBase + 1`, …
(`List.set` ignores out-of-range writes; all writes are in range for
the inputs the theorems consider). -/
def convRow (row : List ℕ) (w : ℤ) (dstBase : ℕ) (plane : List ℕ) : List ℕ :=
  (List.range w.toNat).foldl
    (fun pl x => pl.set (dstBase + x)
      (lum (row.getD (x*3+2) 0) (row.getD (x*3+1) 0) (row.getD (x*3) 0)))
    plane

/-- Row loop of lines 110-133. `pos` is the file position, `y` the
source row index, the third argument the number of rows still to read.
`fread` succeeds on a row exactly when `cnt` bytes remain. Returns the
error (if any) together with the plane contents at that moment. -/
def rowsGo (bs : List ℕ) (w hgt : ℤ) (cnt : ℕ) :
    ℕ → ℕ → ℕ → List ℕ → Option LoadError × List ℕ
  | _, _, 0, plane => (none, plane)
  | pos, y, n+1, plane =>
    if bs.length - pos < cnt then (some .truncatedPixels, plane)
    else rowsGo bs w hgt cnt (pos + cnt) (y+1) n
      (convRow ((bs.drop pos).take cnt) w (((hgt - 1 - (y:ℤ)) * w).toNat) plane)

/-- Width as parsed on line 80: the signed 32-bit field at offset 18. -/
def parsedWidth (bs : List ℕ) : ℤ := toInt32 (readLE bs 18 4)

/-- Raw signed height field at offset 22. -/
def parsedHeightRaw (bs : List ℕ) : ℤ := toInt32 (readLE bs 22 4)

/-- Height stored on line 84: `h > 0 ? h : -h` in `int` arithmetic
(negating `INT_MIN` wraps to itself). -/
def bmpHeight (hraw : ℤ) : ℤ := if 0 < hraw then hraw else wrap32 (-hraw)

/-- Height value stored through the `height` out-parameter. -/
def parsedHeight (bs : List ℕ) : ℤ := bmpHeight (parsedHeightRaw bs)

/-- Pixel-data offset field at offset 10, honored literally (line 99). -/
def pixOffset (bs : List ℕ) : ℕ := readLE bs 10 4

/-- Byte count requested from `malloc` on line 91:
`(*width) * (*height)` in `int` arithmetic, before the `size_t`
conversion at the call boundary. -/
def allocSize (w hgt : ℤ) : ℤ := wrap32 (w * hgt)

/-- Number of bytes `fread` is asked for per row on line 112: the
`int` stride converted to `size_t`. -/
def strideCnt (bs : List ℕ) : ℕ := sizeT (row_padded (parsedWidth bs))

/-- Model of `load_bmp` (lines 41-138 of `src/main.c`). The input is
the byte contents of the file; `allocPlaneOk` and `allocRowBufOk` are
oracles for the success of the two `malloc` calls. -/
def load_bmp (allocPlaneOk allocRowBufOk : Bool) (bs : List ℕ) : LoadOutcome :=
  if bs.length < 14 then
    { ret := -1, err := some .truncatedFileHeader, width_out := none, height_out := none,
      image_out := none, plane_freed := false, row_buf_freed := false, file_closed := true }
  else if readLE bs 0 2 ≠ 0x4D42 then
    { ret := -1, err := some .badMagic, width_out := none, height_out := none,
      image_out := none, plane_freed := false, row_buf_freed := false, file_closed := true }
  else if bs.length < 54 then
    { ret := -1, err := some .truncatedInfoHeader, width_out := none, height_out := none,
      image_out := none, plane_freed := false, row_buf_freed := false, file_closed := true }
  else if readLE bs 28 2 ≠ 24 then
    { ret := -1, err := some .unsupportedDepth, width_out := none, height_out := none,
      image_out := none, plane_freed := false, row_buf_freed := false, file_closed := true }
  else if readLE bs 30 4 ≠ 0 then
    { ret := -1, err := some .unsupportedCompression, width_out := none, height_out := none,
      image_out := none, plane_freed := false, row_buf_freed := false, file_closed := true }
  else
    let w := parsedWidth bs
    let hgt := parsedHeight bs
    if allocPlaneOk = false then
      { ret := -1, err := some .allocPlane, width_out := some w, height_out := some hgt,
        image_out := some none, plane_freed := false, row_buf_freed := false, file_closed := true }
    else
      let planeInit : List ℕ := List.replicate (sizeT (allocSize w hgt)) 0
      let off := pixOffset bs
      if allocRowBufOk = false then
        { ret := -1, err := some .allocRowBuf, width_out := some w, height_out := some hgt,
          image_out := some (some planeInit), plane_freed := true, row_buf_freed := false,
          file_closed := true }
      else
        match rowsGo bs w hgt (strideCnt bs) off 0 hgt.toNat planeInit with
        | (some e, pl) =>
          { ret := -1, err := some e, width_out := some w, height_out := some hgt,
            image_out := some (some pl), plane_freed := true, row_buf_freed := true,
            file_closed := true }
        | (none, pl) =>
          { ret := 0, err := none, width_out := some w, height_out := some hgt,
            image_out := some (some pl), plane_freed := false, row_buf_freed := true,
            file_closed := true }

/-- Load with both allocations succeeding, the ordinary execution. -/
def load (bs : List ℕ) : LoadOutcome := load_bmp true true bs

/-! ### Concrete input files -/

/-- Little-endian byte encoding of `v` on `n` bytes. -/
def leBytes (n v : ℕ) : List ℕ := (List.range n).map (fun i => v / 256^i % 256)

/-- Build a 24-bit BMP file: standard 54-byte header (pixel offset 54,
planes 1, depth 24, compression 0) with raw width field `w`, raw height
field `hraw` (pass `2^32 - h` for a negative stored height), followed
by the pixel region. -/
def mkBMP (w hraw : ℕ) (pix : List ℕ) : List ℕ :=
  leBytes 2 0x4D42 ++ leBytes 4 (54 + pix.length) ++ leBytes 4 0 ++ leBytes 4 54 ++
  leBytes 4 40 ++ leBytes 4 w ++ leBytes 4 hraw ++ leBytes 2 1 ++ leBytes 2 24 ++
  leBytes 4 0 ++ leBytes 4 0 ++ leBytes 4 0 ++ leBytes 4 0 ++ leBytes 4 0 ++ leBytes 4 0 ++ pix

/-- Scenario 3 of the spec: 2×2 bottom-up checkerboard, stored row 0 =
black, white and stored row 1 = white, black, each padded to 8 bytes. -/
def bmpChecker : List ℕ :=
  mkBMP 2 2 [0,0,0, 255,255,255, 0,0, 255,255,255, 0,0,0, 0,0]

/-- Bottom-up (stored height +2) 1×2 image, white on top: stored row 0
is the bottom (black) row. -/
def bmpUp : List ℕ := mkBMP 1 2 [0,0,0,0, 255,255,255,0]

/-- Top-down (stored height −2) encoding of the same logical 1×2 image,
white on top: stored row 0 is the top (white) row. -/
def bmpDown : List ℕ := mkBMP 1 (2^32 - 2) [255,255,255,0, 0,0,0,0]

/-- Syntactically valid BMP whose declared height is 0. -/
def bmpH0 : List ℕ := mkBMP 1 0 []

/-- Valid headers declaring 2×2, but pixel region cut short. -/
def bmpShort : List ℕ := mkBMP 2 2 [0,0,0]

/-- Checkerboard with every padding byte replaced by garbage values. -/
def bmpCheckerPad : List ℕ :=
  mkBMP 2 2 [0,0,0, 255,255,255, 9,250, 255,255,255, 0,0,0, 77,1]

/-- Same bytes as `bmpUp` except that the stored height is −2 instead
of +2 (the pixel region is bit-for-bit identical). -/
def bmpUpSignFlip : List ℕ := mkBMP 1 (2^32 - 2) [0,0,0,0, 255,255,255,0]

/-- File starting with the bytes `X`,`M` instead of `B`,`M`. -/
def bmpBadMagic : List ℕ := (mkBMP 1 1 [255,255,255,0]).set 0 0x58

/-- Valid BMP except that the bit-depth field holds 8. -/
def bmpDepth8 : List ℕ := (mkBMP 1 1 [255,255,255,0]).set 28 8

/-- Modelled from the spec (§4.1 algorithm and §8): the validation a
file must pass for `load` to succeed — both headers fully present,
magic `0x4D42`, depth 24, compression 0, and the pixel region holding
`H` full rows of `stride` bytes (vacuous when no row bytes are ever
demanded). Used as the specification side of the C5 refinement. -/
def validBMP (bs : List ℕ) : Prop :=
  14 ≤ bs.length ∧ readLE bs 0 2 = 0x4D42 ∧ 54 ≤ bs.length ∧
  readLE bs 28 2 = 24 ∧ readLE bs 30 4 = 0 ∧
  ((parsedHeight bs).toNat = 0 ∨ strideCnt bs = 0 ∨
    pixOffset bs + (parsedHeight bs).toNat * strideCnt bs ≤ bs.length)

/-- Argument check of `main` (lines 143-147 of `src/main.c`): the
usage line is printed and the process exits with status 1 exactly when
`argc < 2`; `argc` counts the program name plus the arguments. -/
def main_argc_check (argc : ℕ) : Bool := argc < 2

/-! ### Lemmas about the floating-point model -/

theorem log2fuel_spec : ∀ f n, 1 ≤ n → n ≤ f →
    2 ^ log2fuel f n ≤ n ∧ n < 2 ^ (log2fuel f n + 1) := by
  intro f
  induction f with
  | zero => intro n h1 h2; omega
  | succ f ih =>
    intro n h1 h2
    rw [log2fuel]
    by_cases h : 2 ≤ n
    · rw [if_pos h]
      have hd1 : 1 ≤ n / 2 := by omega
      have hd2 : n / 2 ≤ f := by omega
      obtain ⟨l, u⟩ := ih (n / 2) hd1 hd2
      rw [pow_succ] at u
      constructor
      · rw [pow_succ]
        omega
      · rw [pow_succ, pow_succ]
        omega
    · rw [if_neg h]
      have : n = 1 := by omega
      subst this
      norm_num

theorem nlog2_spec (n : ℕ) (h : 1 ≤ n) :
    2 ^ nlog2 n ≤ n ∧ n < 2 ^ (nlog2 n + 1) :=
  log2fuel_spec n n h le_rfl

theorem pow2_eq_zpow (e : ℤ) : pow2 e = (2:ℚ) ^ e := by
  unfold pow2
  by_cases h : 0 ≤ e
  · rw [if_pos h]
    push_cast
    rw [← zpow_natCast, Int.toNat_of_nonneg h]
  · rw [if_neg h]
    push_cast
    rw [← zpow_natCast, Int.toNat_of_nonneg (by omega : (0:ℤ) ≤ -e), ← zpow_neg, neg_neg]

theorem pow2_pos (e : ℤ) : 0 < pow2 e := by
  rw [pow2_eq_zpow]
  exact zpow_pos (by norm_num) e

theorem pow2_add (a b : ℤ) : pow2 (a + b) = pow2 a * pow2 b := by
  rw [pow2_eq_zpow, pow2_eq_zpow, pow2_eq_zpow]
  exact zpow_add₀ (by norm_num) a b

theorem pow2_le_pow2 {a b : ℤ} (h : a ≤ b) : pow2 a ≤ pow2 b := by
  rw [pow2_eq_zpow, pow2_eq_zpow]
  exact zpow_le_zpow_right₀ one_le_two h

theorem pow2_natCast (k : ℕ) : pow2 (k : ℤ) = (2:ℚ) ^ k := by
  rw [pow2_eq_zpow, zpow_natCast]

theorem rhe_floor_le (q : ℚ) : ⌊q⌋ ≤ rhe q := by
  unfold rhe
  split_ifs <;> omega

theorem rhe_le_floor_add_one (q : ℚ) : rhe q ≤ ⌊q⌋ + 1 := by
  unfold rhe
  split_ifs <;> omega

theorem rhe_ge (q : ℚ) : q - 1/2 ≤ (rhe q : ℚ) := by
  have hfl : (⌊q⌋ : ℚ) ≤ q := Int.floor_le q
  have hfu : q < ⌊q⌋ + 1 := Int.lt_floor_add_one q
  unfold rhe
  split_ifs with h1 h2 h3 <;> push_cast <;> linarith

theorem rhe_le (q : ℚ) : (rhe q : ℚ) ≤ q + 1/2 := by
  have hfl : (⌊q⌋ : ℚ) ≤ q := Int.floor_le q
  have hfu : q < ⌊q⌋ + 1 := Int.lt_floor_add_one q
  unfold rhe
  split_ifs with h1 h2 h3 <;> push_cast <;> linarith

theorem rhe_mono {x y : ℚ} (h : x ≤ y) : rhe x ≤ rhe y := by
  rcases lt_or_eq_of_le (Int.floor_le_floor h) with hf | hf
  · have h1 := rhe_le_floor_add_one x
    have h2 := rhe_floor_le y
    omega
  · have hx1 : x - ⌊x⌋ ≤ y - ⌊y⌋ := by
      have : (⌊x⌋ : ℚ) = ⌊y⌋ := by exact_mod_cast hf
      linarith
    unfold rhe
    rw [hf]
    split_ifs <;> first | omega | linarith

theorem rnd_nonneg (q : ℚ) : 0 ≤ rnd q := by
  unfold rnd
  split_ifs with h
  · exact le_refl 0
  · have hq : 0 < q := not_le.mp h
    apply mul_nonneg (pow2_pos _).le
    have h1 : (0:ℚ) ≤ q * pow2 (52 - qexp q) := mul_nonneg hq.le (pow2_pos _).le
    have h2 := rhe_floor_le (q * pow2 (52 - qexp q))
    have h3 := Int.floor_nonneg.mpr h1
    exact_mod_cast (by omega : (0:ℤ) ≤ rhe (q * pow2 (52 - qexp q)))

theorem qexp_spec (q : ℚ) (hq : 0 < q) :
    pow2 (qexp q) ≤ q ∧ q < pow2 (qexp q + 1) := by
  have hnum : 0 < q.num := Rat.num_pos.mpr hq
  have hN1 : 1 ≤ q.num.toNat := by omega
  have hD1 : 1 ≤ q.den := q.den_pos
  obtain ⟨hNl, hNu⟩ := nlog2_spec q.num.toNat hN1
  obtain ⟨hDl, hDu⟩ := nlog2_spec q.den hD1
  have hDq : (0:ℚ) < (q.den : ℚ) := by exact_mod_cast hD1
  have hqND : q * (q.den : ℚ) = (q.num.toNat : ℚ) := by
    have h1 : ((q.num.toNat : ℤ) : ℚ) = ((q.num.toNat : ℕ) : ℚ) := by push_cast; ring
    rw [Rat.mul_den_eq_num, ← h1, Int.toNat_of_nonneg hnum.le]
  set a : ℕ := nlog2 q.num.toNat with ha
  set b : ℕ := nlog2 q.den with hb
  -- upper bound: q < pow2 (a - b + 1)
  have hu : q < pow2 ((a:ℤ) - b + 1) := by
    rw [← mul_lt_mul_right hDq, hqND]
    calc (q.num.toNat : ℚ) < (2:ℚ) ^ (a + 1) := by exact_mod_cast hNu
      _ = pow2 ((a:ℤ) - b + 1) * (2:ℚ) ^ b := by
          rw [← pow2_natCast, ← pow2_natCast, ← pow2_add]
          congr 1
          omega
      _ ≤ pow2 ((a:ℤ) - b + 1) * (q.den : ℚ) := by
          apply mul_le_mul_of_nonneg_left _ (pow2_pos _).le
          exact_mod_cast hDl
  -- lower bound: pow2 (a - b - 1) < q
  have hl : pow2 ((a:ℤ) - b - 1) < q := by
    rw [← mul_lt_mul_right hDq, hqND]
    calc pow2 ((a:ℤ) - b - 1) * (q.den : ℚ) < pow2 ((a:ℤ) - b - 1) * (2:ℚ) ^ (b+1) := by
          apply mul_lt_mul_of_pos_left _ (pow2_pos _)
          exact_mod_cast hDu
      _ = (2:ℚ) ^ a := by
          rw [← pow2_natCast, ← pow2_natCast, ← pow2_add]
          congr 1
          omega
      _ ≤ (q.num.toNat : ℚ) := by exact_mod_cast hNl
  unfold qexp
  rw [← ha, ← hb]
  split_ifs with hcase
  · constructor
    · exact le_of_lt (by simpa using hl)
    · simpa using hcase
  · constructor
    · exact not_lt.mp hcase
    · exact hu

theorem rnd_upper {q : ℚ} (hq : 0 < q) : rnd q ≤ pow2 (qexp q + 1) := by
  unfold rnd
  rw [if_neg (not_le.mpr hq)]
  set e := qexp q with he
  set X := q * pow2 (52 - e) with hX
  have hqu : q < pow2 (e + 1) := (qexp_spec q hq).2
  have h1 : X < (2:ℚ) ^ (53:ℕ) := by
    calc X < pow2 (e + 1) * pow2 (52 - e) := mul_lt_mul_of_pos_right hqu (pow2_pos _)
      _ = (2:ℚ) ^ (53:ℕ) := by
          rw [← pow2_add, ← pow2_natCast]
          congr 1
          omega
  have h2 : (rhe X : ℚ) ≤ X + 1/2 := rhe_le X
  have h3 : rhe X ≤ 2 ^ 53 := by
    have : (rhe X : ℚ) < ((2 ^ 53 + 1 : ℤ) : ℚ) := by push_cast; linarith
    have := Int.cast_lt.mp this
    omega
  calc pow2 (e - 52) * (rhe X : ℚ) ≤ pow2 (e - 52) * ((2:ℚ) ^ (53:ℕ)) := by
        apply mul_le_mul_of_nonneg_left _ (pow2_pos _).le
        exact_mod_cast h3
    _ = pow2 (e + 1) := by
        rw [← pow2_natCast, ← pow2_add]
        congr 1
        omega

theorem rnd_lower {q : ℚ} (hq : 0 < q) : pow2 (qexp q) ≤ rnd q := by
  unfold rnd
  rw [if_neg (not_le.mpr hq)]
  set e := qexp q with he
  set X := q * pow2 (52 - e) with hX
  have hql : pow2 e ≤ q := (qexp_spec q hq).1
  have h1 : (2:ℚ) ^ (52:ℕ) ≤ X := by
    calc (2:ℚ) ^ (52:ℕ) = pow2 e * pow2 (52 - e) := by
          rw [← pow2_add, ← pow2_natCast]
          congr 1
          omega
      _ ≤ X := mul_le_mul_of_nonneg_right hql (pow2_pos _).le
  have h2 : X - 1/2 ≤ (rhe X : ℚ) := rhe_ge X
  have h3 : (2:ℤ) ^ 52 ≤ rhe X := by
    have : ((2 ^ 52 - 1 : ℤ) : ℚ) < (rhe X : ℚ) := by push_cast; linarith
    have := Int.cast_lt.mp this
    omega
  calc pow2 e = pow2 (e - 52) * ((2:ℚ) ^ (52:ℕ)) := by
        rw [← pow2_natCast, ← pow2_add]
        congr 1
        omega
    _ ≤ pow2 (e - 52) * (rhe X : ℚ) := by
        apply mul_le_mul_of_nonneg_left _ (pow2_pos _).le
        exact_mod_cast h3

theorem rnd_mono {x y : ℚ} (hx : 0 ≤ x) (h : x ≤ y) : rnd x ≤ rnd y := by
  rcases eq_or_lt_of_le hx with h0 | h0
  · rw [show rnd x = 0 by unfold rnd; rw [if_pos (le_of_eq h0.symm)]]
    exact rnd_nonneg y
  · have hy : 0 < y := lt_of_lt_of_le h0 h
    have hex_le : qexp x ≤ qexp y := by
      by_contra hc
      push_neg at hc
      have h1 : pow2 (qexp x) ≤ x := (qexp_spec x h0).1
      have h2 : y < pow2 (qexp y + 1) := (qexp_spec y hy).2
      have h3 : pow2 (qexp y + 1) ≤ pow2 (qexp x) := pow2_le_pow2 (by omega)
      linarith
    rcases eq_or_lt_of_le hex_le with he | he
    · unfold rnd
      rw [if_neg (not_le.mpr h0), if_neg (not_le.mpr hy), ← he]
      apply mul_le_mul_of_nonneg_left _ (pow2_pos _).le
      have := rhe_mono (mul_le_mul_of_nonneg_right h (pow2_pos (52 - qexp x)).le)
      exact_mod_cast this
    · calc rnd x ≤ pow2 (qexp x + 1) := rnd_upper h0
        _ ≤ pow2 (qexp y) := pow2_le_pow2 (by omega)
        _ ≤ rnd y := rnd_lower hy

theorem lumQ_mono {r g b r' g' b' : ℕ} (hr : r ≤ r') (hg : g ≤ g') (hb : b ≤ b') :
    lumQ r g b ≤ lumQ r' g' b' := by
  unfold lumQ
  have hc1 : 0 ≤ c299 := rnd_nonneg _
  have hc2 : 0 ≤ c587 := rnd_nonneg _
  have hc3 : 0 ≤ c114 := rnd_nonneg _
  have h1 : rnd (c299 * r) ≤ rnd (c299 * r') :=
    rnd_mono (mul_nonneg hc1 (Nat.cast_nonneg r))
      (mul_le_mul_of_nonneg_left (by exact_mod_cast hr) hc1)
  have h2 : rnd (c587 * g) ≤ rnd (c587 * g') :=
    rnd_mono (mul_nonneg hc2 (Nat.cast_nonneg g))
      (mul_le_mul_of_nonneg_left (by exact_mod_cast hg) hc2)
  have h3 : rnd (c114 * b) ≤ rnd (c114 * b') :=
    rnd_mono (mul_nonneg hc3 (Nat.cast_nonneg b))
      (mul_le_mul_of_nonneg_left (by exact_mod_cast hb) hc3)
  have hs1 : rnd (rnd (c299 * r) + rnd (c587 * g)) ≤ rnd (rnd (c299 * r') + rnd (c587 * g')) :=
    rnd_mono (add_nonneg (rnd_nonneg _) (rnd_nonneg _)) (add_le_add h1 h2)
  exact rnd_mono (add_nonneg (rnd_nonneg _) (rnd_nonneg _)) (add_le_add hs1 h3)

theorem lumQ_nonneg (r g b : ℕ) : 0 ≤ lumQ r g b := rnd_nonneg _

/-! ### Lemmas about the byte-level model -/

theorem getD_drop_take (bs : List ℕ) (pos cnt i : ℕ) :
    ((bs.drop pos).take cnt).getD i 0 = if i < cnt then bs.getD (pos + i) 0 else 0 := by
  rw [List.getD_eq_getElem?_getD, List.getD_eq_getElem?_getD]
  split_ifs with h
  · rw [List.getElem?_take_of_lt h, List.getElem?_drop]
  · rw [List.getElem?_eq_none]
    · rfl
    · have h1 : ((bs.drop pos).take cnt).length ≤ cnt := List.length_take_le cnt _
      omega

theorem convRow_length (row : List ℕ) (w : ℤ) (base : ℕ) (plane : List ℕ) :
    (convRow row w base plane).length = plane.length := by
  unfold convRow
  generalize List.range w.toNat = l
  induction l generalizing plane with
  | nil => rfl
  | cons x xs ih =>
    rw [List.foldl_cons, ih, List.length_set]

theorem convRow_congr (row₁ row₂ : List ℕ) (w : ℤ) (base : ℕ) (plane : List ℕ)
    (h : ∀ i, i < 3 * w.toNat → row₁.getD i 0 = row₂.getD i 0) :
    convRow row₁ w base plane = convRow row₂ w base plane := by
  unfold convRow
  apply List.foldl_ext
  intro pl x hx
  rw [List.mem_range] at hx
  rw [h (x*3) (by omega), h (x*3+1) (by omega), h (x*3+2) (by omega)]

theorem rowsGo_length (bs : List ℕ) (w hgt : ℤ) (cnt : ℕ) :
    ∀ n pos y plane, ((rowsGo bs w hgt cnt pos y n plane).2).length = plane.length := by
  intro n
  induction n with
  | zero => intro pos y plane; rfl
  | succ n ih =>
    intro pos y plane
    rw [rowsGo]
    split_ifs with h
    · rfl
    · rw [ih, convRow_length]

theorem rowsGo_fst_cases (bs : List ℕ) (w hgt : ℤ) (cnt : ℕ) :
    ∀ n pos y plane, (rowsGo bs w hgt cnt pos y n plane).1 = none ∨
      (rowsGo bs w hgt cnt pos y n plane).1 = some .truncatedPixels := by
  intro n
  induction n with
  | zero => intro pos y plane; exact Or.inl rfl
  | succ n ih =>
    intro pos y plane
    rw [rowsGo]
    split_ifs with h
    · exact Or.inr rfl
    · exact ih _ _ _

theorem rowsGo_none_iff (bs : List ℕ) (w hgt : ℤ) (cnt : ℕ) :
    ∀ n pos y plane, (rowsGo bs w hgt cnt pos y n plane).1 = none ↔
      (n = 0 ∨ cnt = 0 ∨ pos + n * cnt ≤ bs.length) := by
  intro n
  induction n with
  | zero => intro pos y plane; simp [rowsGo]
  | succ n ih =>
    intro pos y plane
    rw [rowsGo]
    split_ifs with h
    · constructor
      · intro hc
        exact absurd hc (by simp)
      · intro hc
        exfalso
        rcases hc with h0 | h0 | h0
        · exact h0
        · omega
        · rw [Nat.succ_mul] at h0
          by_cases hn : n = 0
          · subst hn; simp at h0; omega
          · have hcm : cnt ≤ n * cnt := Nat.le_mul_of_pos_left cnt (by omega)
            generalize n * cnt = m at *
            omega
    · rw [ih, Nat.succ_mul]
      by_cases hn : n = 0
      · subst hn; simp; omega
      · have hpos : 0 < n := by omega
        have h2 : cnt ≤ n * cnt ∨ cnt = 0 := by
          rcases Nat.eq_zero_or_pos cnt with hc | hc
          · exact Or.inr hc
          · exact Or.inl (Nat.le_mul_of_pos_left cnt hpos)
        generalize n * cnt = m at *
        simp only [Nat.succ_ne_zero, false_or]
        omega

theorem rowsGo_congr (bs₁ bs₂ : List ℕ) (w hgt : ℤ) (cnt : ℕ)
    (hlen : bs₁.length = bs₂.length) :
    ∀ n pos y plane,
      (∀ q j, q < n → j < 3 * w.toNat →
        bs₁.getD (pos + q * cnt + j) 0 = bs₂.getD (pos + q * cnt + j) 0) →
      rowsGo bs₁ w hgt cnt pos y n plane = rowsGo bs₂ w hgt cnt pos y n plane := by
  intro n
  induction n with
  | zero => intro pos y plane h; rfl
  | succ n ih =>
    intro pos y plane h
    rw [rowsGo, rowsGo, hlen]
    split_ifs with hc
    · rfl
    · rw [convRow_congr ((bs₁.drop pos).take cnt) ((bs₂.drop pos).take cnt) w _ plane
        (fun i hi => by
          rw [getD_drop_take, getD_drop_take]
          split_ifs with hlt
          · have := h 0 i (by omega) hi
            simpa using this
          · rfl)]
      apply ih
      intro q j hq hj
      have := h (q+1) j (by omega) hj
      have harith : pos + (q+1) * cnt + j = pos + cnt + q * cnt + j := by ring
      rwa [harith] at this

theorem readLE_congr {bs₁ bs₂ : List ℕ} :
    ∀ (n off : ℕ), (∀ i, i < n → bs₁.getD (off + i) 0 = bs₂.getD (off + i) 0) →
      readLE bs₁ off n = readLE bs₂ off n := by
  intro n
  induction n with
  | zero => intro off h; rfl
  | succ n ih =>
    intro off h
    rw [readLE, readLE]
    have h0 : bs₁.getD off 0 = bs₂.getD off 0 := by
      have := h 0 (by omega)
      simpa using this
    rw [h0, ih (off + 1) (fun i hi => by
      have := h (i + 1) (by omega)
      rwa [show off + (i + 1) = off + 1 + i by ring] at this)]

theorem toInt32_range (n : ℕ) : -2^31 ≤ toInt32 n ∧ toInt32 n < 2^31 := by
  unfold toInt32
  split_ifs with h <;> constructor <;> omega

theorem bmpHeight_signflip {hraw : ℤ} (h1 : -2^31 ≤ hraw) (h2 : hraw < 2^31) :
    bmpHeight (wrap32 (-hraw)) = bmpHeight hraw := by
  unfold bmpHeight wrap32
  split_ifs <;> omega

/-- Unfolding of a `load` whose five header checks pass. -/
theorem load_unfold (bs : List ℕ) (h54 : 54 ≤ bs.length)
    (hmagic : readLE bs 0 2 = 0x4D42) (hdepth : readLE bs 28 2 = 24)
    (hcomp : readLE bs 30 4 = 0) :
    load bs =
      (match rowsGo bs (parsedWidth bs) (parsedHeight bs) (strideCnt bs) (pixOffset bs) 0
          (parsedHeight bs).toNat
          (List.replicate (sizeT (allocSize (parsedWidth bs) (parsedHeight bs))) 0) with
        | (some e, pl) =>
          { ret := -1, err := some e, width_out := some (parsedWidth bs),
            height_out := some (parsedHeight bs), image_out := some (some pl),
            plane_freed := true, row_buf_freed := true, file_closed := true }
        | (none, pl) =>
          { ret := 0, err := none, width_out := some (parsedWidth bs),
            height_out := some (parsedHeight bs), image_out := some (some pl),
            plane_freed := false, row_buf_freed := true, file_closed := true }) := by
  unfold load
  simp only [load_bmp]
  rw [if_neg (by omega), if_neg (fun hne => hne hmagic), if_neg (by omega),
    if_neg (fun hne => hne hdepth), if_neg (fun hne => hne hcomp),
    if_neg (by simp), if_neg (by simp)]

/-- Congruence for `load`: two files with equal lengths, equal header
fields and equal pixel bytes load identically; padding bytes and bytes
past the last row are never read. -/
theorem load_congr (bs₁ bs₂ : List ℕ) (hlen : bs₁.length = bs₂.length)
    (h02 : readLE bs₁ 0 2 = readLE bs₂ 0 2)
    (h28 : readLE bs₁ 28 2 = readLE bs₂ 28 2)
    (h30 : readLE bs₁ 30 4 = readLE bs₂ 30 4)
    (hW : parsedWidth bs₁ = parsedWidth bs₂)
    (hH : parsedHeight bs₁ = parsedHeight bs₂)
    (hOff : pixOffset bs₁ = pixOffset bs₂)
    (hpix : ∀ q, q < (parsedHeight bs₁).toNat → ∀ j, j < 3 * (parsedWidth bs₁).toNat →
      bs₁.getD (pixOffset bs₁ + q * strideCnt bs₁ + j) 0 =
        bs₂.getD (pixOffset bs₁ + q * strideCnt bs₁ + j) 0) :
    load bs₁ = load bs₂ := by
  have hStr : strideCnt bs₁ = strideCnt bs₂ := by
    unfold strideCnt
    rw [hW]
  unfold load
  simp only [load_bmp]
  rw [hlen, h02, h28, h30, hW, hH, hOff, hStr]
  split_ifs <;> try rfl
  rw [rowsGo_congr bs₁ bs₂ (parsedWidth bs₂) (parsedHeight bs₂) (strideCnt bs₂) hlen
    (parsedHeight bs₂).toNat (pixOffset bs₂) 0 _ ?_]
  intro q j hq hj
  have h1 := hpix q (by rwa [hH]) j (by rwa [hW])
  rwa [hOff, hStr] at h1

/-- Branch of `load` taken when the file header cannot be read. -/
theorem load_short_file (bs : List ℕ) (h : bs.length < 14) :
    load bs = ⟨-1, some .truncatedFileHeader, none, none, none, false, false, true⟩ := by
  unfold load
  simp only [load_bmp]
  rw [if_pos h]

/-- Branch of `load` taken on a magic-number mismatch. -/
theorem load_bad_magic (bs : List ℕ) (h14 : ¬ bs.length < 14)
    (hm : readLE bs 0 2 ≠ 0x4D42) :
    load bs = ⟨-1, some .badMagic, none, none, none, false, false, true⟩ := by
  unfold load
  simp only [load_bmp]
  rw [if_neg h14, if_pos hm]

/-- Branch of `load` taken when the info header cannot be read. -/
theorem load_short_info (bs : List ℕ) (h14 : ¬ bs.length < 14)
    (hm : readLE bs 0 2 = 0x4D42) (h54 : bs.length < 54) :
    load bs = ⟨-1, some .truncatedInfoHeader, none, none, none, false, false, true⟩ := by
  unfold load
  simp only [load_bmp]
  rw [if_neg h14, if_neg (fun hne => hne hm), if_pos h54]

/-- Branch of `load` taken on an unsupported bit depth. -/
theorem load_bad_depth (bs : List ℕ) (h14 : ¬ bs.length < 14)
    (hm : readLE bs 0 2 = 0x4D42) (h54 : ¬ bs.length < 54)
    (hd : readLE bs 28 2 ≠ 24) :
    load bs = ⟨-1, some .unsupportedDepth, none, none, none, false, false, true⟩ := by
  unfold load
  simp only [load_bmp]
  rw [if_neg h14, if_neg (fun hne => hne hm), if_neg h54, if_pos hd]

/-- Branch of `load` taken on a nonzero compression field. -/
theorem load_bad_comp (bs : List ℕ) (h14 : ¬ bs.length < 14)
    (hm : readLE bs 0 2 = 0x4D42) (h54 : ¬ bs.length < 54)
    (hd : readLE bs 28 2 = 24) (hc : readLE bs 30 4 ≠ 0) :
    load bs = ⟨-1, some .unsupportedCompression, none, none, none, false, false, true⟩ := by
  unfold load
  simp only [load_bmp]
  rw [if_neg h14, if_neg (fun hne => hne hm), if_neg h54, if_neg (fun hne => hne hd), if_pos hc]

/-- Success of `load` is exactly passing the validation of `validBMP`. -/
theorem load_ret_zero_iff (bs : List ℕ) : (load bs).ret = 0 ↔ validBMP bs := by
  by_cases h14 : bs.length < 14
  · rw [load_short_file bs h14]
    constructor
    · intro h; exact absurd h (by decide)
    · intro hv; exact absurd hv.1 (by omega)
  · by_cases hm : readLE bs 0 2 = 0x4D42
    · by_cases h54 : bs.length < 54
      · rw [load_short_info bs h14 hm h54]
        constructor
        · intro h; exact absurd h (by decide)
        · intro hv; exact absurd hv.2.2.1 (by omega)
      · by_cases hd : readLE bs 28 2 = 24
        · by_cases hc : readLE bs 30 4 = 0
          · rw [load_unfold bs (by omega) hm hd hc]
            rcases hrows : rowsGo bs (parsedWidth bs) (parsedHeight bs) (strideCnt bs)
                (pixOffset bs) 0 (parsedHeight bs).toNat
                (List.replicate (sizeT (allocSize (parsedWidth bs) (parsedHeight bs))) 0)
              with ⟨e?, pl⟩
            have hiff := rowsGo_none_iff bs (parsedWidth bs) (parsedHeight bs) (strideCnt bs)
              (parsedHeight bs).toNat (pixOffset bs) 0
              (List.replicate (sizeT (allocSize (parsedWidth bs) (parsedHeight bs))) 0)
            rw [hrows] at hiff
            cases e? with
            | none =>
              constructor
              · intro _
                exact ⟨by omega, hm, by omega, hd, hc, hiff.mp rfl⟩
              · intro _; rfl
            | some e =>
              constructor
              · intro h; exact absurd h (by simp)
              · intro hv
                exact absurd (hiff.mpr hv.2.2.2.2.2) (by simp)
          · rw [load_bad_comp bs h14 hm h54 hd hc]
            constructor
            · intro h; exact absurd h (by decide)
            · intro hv; exact absurd hv.2.2.2.2.1 hc
        · rw [load_bad_depth bs h14 hm h54 hd]
          constructor
          · intro h; exact absurd h (by decide)
          · intro hv; exact absurd hv.2.2.2.1 hd
    · rw [load_bad_magic bs h14 hm]
      constructor
      · intro h; exact absurd h (by decide)
      · intro hv; exact absurd hv.2.1 hm

/-- The return value is 0 exactly when no error branch fired. -/
theorem load_ret_zero_iff_err_none (bs : List ℕ) : (load bs).ret = 0 ↔ (load bs).err = none := by
  by_cases h14 : bs.length < 14
  · rw [load_short_file bs h14]
    exact ⟨fun h => absurd h (by decide), fun h => absurd h (by decide)⟩
  · by_cases hm : readLE bs 0 2 = 0x4D42
    · by_cases h54 : bs.length < 54
      · rw [load_short_info bs h14 hm h54]
        exact ⟨fun h => absurd h (by decide), fun h => absurd h (by decide)⟩
      · by_cases hd : readLE bs 28 2 = 24
        · by_cases hc : readLE bs 30 4 = 0
          · rw [load_unfold bs (by omega) hm hd hc]
            rcases rowsGo bs (parsedWidth bs) (parsedHeight bs) (strideCnt bs)
                (pixOffset bs) 0 (parsedHeight bs).toNat
                (List.replicate (sizeT (allocSize (parsedWidth bs) (parsedHeight bs))) 0)
              with ⟨e?, pl⟩
            cases e? with
            | none => exact ⟨fun _ => rfl, fun _ => rfl⟩
            | some e =>
              exact ⟨fun h => absurd h (by simp), fun h => absurd h (by simp)⟩
          · rw [load_bad_comp bs h14 hm h54 hd hc]
            exact ⟨fun h => absurd h (by decide), fun h => absurd h (by decide)⟩
        · rw [load_bad_depth bs h14 hm h54 hd]
          exact ⟨fun h => absurd h (by decide), fun h => absurd h (by decide)⟩
    · rw [load_bad_magic bs h14 hm]
      exact ⟨fun h => absurd h (by decide), fun h => absurd h (by decide)⟩

/-! ### Claims -/

/-- C1 counterexample: two BMPs encoding the same logical 1×2 image
(white on top), one bottom-up (stored height +2) and one top-down
(stored height −2), load to different planes: the bottom-up file gives
the correct top-down plane `[255, 0]`, the top-down file gives the
vertically flipped plane `[0, 255]`. The claimed orientation handling
(destination row `y` for negative heights) is absent from the code:
line 124 always uses `H - 1 - y`. -/
theorem C1_counterexample :
    (load bmpUp).image_out = some (some [255, 0]) ∧
    (load bmpDown).image_out = some (some [0, 255]) ∧
    load bmpUp ≠ load bmpDown := by
  with_unfolding_all decide

/-- C1 amended: `load_bmp` ignores the sign of the stored height except
through its magnitude — the destination row index is `H − 1 − y` for
both orientations. Consequently two files with identical bytes except
for the sign of the height field (same pixel region in file order)
produce identical outcomes, and a negative-height (top-down) BMP
yields the vertical mirror of its image rather than the image itself. -/
theorem C1_amended_sign_insensitive (bs₁ bs₂ : List ℕ)
    (hlen : bs₁.length = bs₂.length)
    (hagree : ∀ i, i < bs₁.length → (i < 22 ∨ 26 ≤ i) → bs₁.getD i 0 = bs₂.getD i 0)
    (hflip : parsedHeightRaw bs₂ = wrap32 (-parsedHeightRaw bs₁))
    (hoff : 26 ≤ pixOffset bs₁) :
    load bs₁ = load bs₂ := by
  have hag : ∀ i, (i < 22 ∨ 26 ≤ i) → bs₁.getD i 0 = bs₂.getD i 0 := by
    intro i hi
    by_cases hl : i < bs₁.length
    · exact hagree i hl hi
    · rw [List.getD_eq_getElem?_getD, List.getD_eq_getElem?_getD,
        List.getElem?_eq_none (by omega), List.getElem?_eq_none (by omega)]
  have h02 : readLE bs₁ 0 2 = readLE bs₂ 0 2 :=
    readLE_congr 2 0 (fun i hi => hag _ (Or.inl (by omega)))
  have h28 : readLE bs₁ 28 2 = readLE bs₂ 28 2 :=
    readLE_congr 2 28 (fun i hi => hag _ (Or.inr (by omega)))
  have h30 : readLE bs₁ 30 4 = readLE bs₂ 30 4 :=
    readLE_congr 4 30 (fun i hi => hag _ (Or.inr (by omega)))
  have h18 : readLE bs₁ 18 4 = readLE bs₂ 18 4 :=
    readLE_congr 4 18 (fun i hi => hag _ (Or.inl (by omega)))
  have h10 : readLE bs₁ 10 4 = readLE bs₂ 10 4 :=
    readLE_congr 4 10 (fun i hi => hag _ (Or.inl (by omega)))
  have hW : parsedWidth bs₁ = parsedWidth bs₂ := by
    unfold parsedWidth
    rw [h18]
  have hOff : pixOffset bs₁ = pixOffset bs₂ := h10
  have hH : parsedHeight bs₁ = parsedHeight bs₂ := by
    unfold parsedHeight
    rw [hflip]
    obtain ⟨hr1, hr2⟩ := toInt32_range (readLE bs₁ 22 4)
    exact (bmpHeight_signflip hr1 hr2).symm
  apply load_congr bs₁ bs₂ hlen h02 h28 h30 hW hH hOff
  intro q hq j hj
  exact hag _ (Or.inr (by omega))

/-- C1 amended witness: flipping only the height sign of `bmpUp`
(pixel bytes unchanged) leaves the loaded outcome unchanged. -/
theorem C1_amended_witness : load bmpUp = load bmpUpSignFlip :=
  C1_amended_sign_insensitive bmpUp bmpUpSignFlip
    (by with_unfolding_all decide) (by with_unfolding_all decide)
    (by with_unfolding_all decide) (by with_unfolding_all decide)

/-- C2 counterexample: a syntactically valid BMP declaring width 1 and
height 0 is not rejected — `load_bmp` performs no width or height
validation; it succeeds with an empty plane. -/
theorem C2_counterexample :
    (load bmpH0).ret = 0 ∧ (load bmpH0).err = none ∧
    (load bmpH0).width_out = some 1 ∧ (load bmpH0).height_out = some 0 ∧
    (load bmpH0).image_out = some (some []) := by
  with_unfolding_all decide

/-- C2 amended: `load_bmp` never validates the dimensions, but for
every successful load whose `width × height` product lies within
`[0, 2^31)` the plane length equals `width × height`. -/
theorem C2_amended_plane_size (bs : List ℕ) (w hgt : ℤ) (pl : List ℕ)
    (hret : (load bs).ret = 0)
    (hw : (load bs).width_out = some w)
    (hh : (load bs).height_out = some hgt)
    (him : (load bs).image_out = some (some pl))
    (h0 : 0 ≤ w * hgt) (hlt : w * hgt < 2^31) :
    pl.length = (w * hgt).toNat := by
  have hv := (load_ret_zero_iff bs).mp hret
  obtain ⟨h14, hm, h54, hd, hc, _⟩ := hv
  rw [load_unfold bs h54 hm hd hc] at hret hw hh him
  rcases hrows : rowsGo bs (parsedWidth bs) (parsedHeight bs) (strideCnt bs)
      (pixOffset bs) 0 (parsedHeight bs).toNat
      (List.replicate (sizeT (allocSize (parsedWidth bs) (parsedHeight bs))) 0)
    with ⟨e?, pl'⟩
  rw [hrows] at hret hw hh him
  cases e? with
  | some e => exact absurd hret (by simp)
  | none =>
    have hw' : parsedWidth bs = w := by simpa using hw
    have hh' : parsedHeight bs = hgt := by simpa using hh
    have hpl : pl' = pl := by simpa using him
    have hlength : pl'.length = sizeT (allocSize (parsedWidth bs) (parsedHeight bs)) := by
      have := rowsGo_length bs (parsedWidth bs) (parsedHeight bs) (strideCnt bs)
        (parsedHeight bs).toNat (pixOffset bs) 0
        (List.replicate (sizeT (allocSize (parsedWidth bs) (parsedHeight bs))) 0)
      rw [hrows] at this
      simpa using this
    rw [← hpl, hlength, hw', hh']
    unfold allocSize wrap32 sizeT
    generalize w * hgt = p at *
    omega

/-- C2 amended witness: the checkerboard load has a plane of
width × height = 4 bytes. -/
theorem C2_amended_witness : ([255, 0, 0, 255] : List ℕ).length = ((2 * 2 : ℤ)).toNat :=
  C2_amended_plane_size bmpChecker 2 2 [255, 0, 0, 255]
    (by with_unfolding_all decide) (by with_unfolding_all decide)
    (by with_unfolding_all decide) (by with_unfolding_all decide)
    (by decide) (by decide)

/-- C3: the luminance byte is the double sum `0.299·R + 0.587·G + 0.114·B`
(with per-operation IEEE rounding) truncated toward zero, and for all
channel values in `[0, 255]` it lies in `[0, 255]` — no wrap-around:
the double sum itself never reaches 256 (its maximum, at white, is
exactly 255). -/
theorem C3_luminance (r g b : ℕ) (hr : r ≤ 255) (hg : g ≤ 255) (hb : b ≤ 255) :
    lum r g b = (⌊lumQ r g b⌋).toNat ∧ 0 ≤ ⌊lumQ r g b⌋ ∧ ⌊lumQ r g b⌋ ≤ 255 ∧
    lum r g b ≤ 255 := by
  have hmax : lumQ 255 255 255 = 255 := by with_unfolding_all decide
  have hle : lumQ r g b ≤ (255 : ℚ) := by
    have h1 := lumQ_mono hr hg hb
    rwa [hmax] at h1
  have hnn : 0 ≤ lumQ r g b := lumQ_nonneg r g b
  have hfl_nn : 0 ≤ ⌊lumQ r g b⌋ := Int.floor_nonneg.mpr hnn
  have hfl_le : ⌊lumQ r g b⌋ ≤ 255 := by
    have h2 := Int.floor_le_floor hle
    simpa using h2
  refine ⟨rfl, hfl_nn, hfl_le, ?_⟩
  unfold lum
  omega

/-- C3 witness at a concrete pixel. -/
theorem C3_luminance_witness :
    lum 255 128 7 = (⌊lumQ 255 128 7⌋).toNat ∧ 0 ≤ ⌊lumQ 255 128 7⌋ ∧
    ⌊lumQ 255 128 7⌋ ≤ 255 ∧ lum 255 128 7 ≤ 255 :=
  C3_luminance 255 128 7 (by decide) (by decide) (by decide)

/-- C4: the 2×2 bottom-up checkerboard loads to width 2, height 2 and
the top-down plane `[255, 0, 0, 255]` (black → 0, white → 255; stored
row 0 lands in plane row 1 and stored row 1 in plane row 0). -/
theorem C4_checkerboard :
    load bmpChecker =
      { ret := 0, err := none, width_out := some 2, height_out := some 2,
        image_out := some (some [255, 0, 0, 255]), plane_freed := false,
        row_buf_freed := true, file_closed := true } := by
  with_unfolding_all decide

/-- C5: the magic, depth and compression checks each fire right after
their header is fully read (a header short of bytes reports truncation
instead), and the load returns 0 exactly when validation — headers
present, magic 0x4D42, depth 24, compression 0, pixel rows present —
passes, equivalently exactly when no error branch fired. -/
theorem C5_validation (bs : List ℕ) :
    (bs.length < 14 → (load bs).err = some .truncatedFileHeader) ∧
    (14 ≤ bs.length → readLE bs 0 2 ≠ 0x4D42 → (load bs).err = some .badMagic) ∧
    (14 ≤ bs.length → readLE bs 0 2 = 0x4D42 → bs.length < 54 →
      (load bs).err = some .truncatedInfoHeader) ∧
    (54 ≤ bs.length → readLE bs 0 2 = 0x4D42 → readLE bs 28 2 ≠ 24 →
      (load bs).err = some .unsupportedDepth) ∧
    (54 ≤ bs.length → readLE bs 0 2 = 0x4D42 → readLE bs 28 2 = 24 → readLE bs 30 4 ≠ 0 →
      (load bs).err = some .unsupportedCompression) ∧
    ((load bs).ret = 0 ↔ validBMP bs) ∧
    ((load bs).ret = 0 ↔ (load bs).err = none) := by
  refine ⟨?_, ?_, ?_, ?_, ?_, load_ret_zero_iff bs, load_ret_zero_iff_err_none bs⟩
  · intro h
    rw [load_short_file bs h]
  · intro h14 hm
    rw [load_bad_magic bs (by omega) hm]
  · intro h14 hm h54
    rw [load_short_info bs (by omega) hm h54]
  · intro h54 hm hd
    rw [load_bad_depth bs (by omega) hm (by omega) hd]
  · intro h54 hm hd hc
    rw [load_bad_comp bs (by omega) hm (by omega) hd hc]

/-- C5 witness: a file with magic `X`,`M` fails with the bad-magic
diagnostic, and a depth-8 file with the unsupported-depth one. -/
theorem C5_validation_witness :
    (load bmpBadMagic).err = some .badMagic ∧
    (load bmpDepth8).err = some .unsupportedDepth ∧
    ((load bmpChecker).ret = 0 ↔ validBMP bmpChecker) := by
  refine ⟨?_, ?_, (C5_validation bmpChecker).2.2.2.2.2.1⟩
  · exact (C5_validation bmpBadMagic).2.1 (by with_unfolding_all decide)
      (by with_unfolding_all decide)
  · exact (C5_validation bmpDepth8).2.2.2.1 (by with_unfolding_all decide)
      (by with_unfolding_all decide) (by with_unfolding_all decide)

/-- C6: when the pixel region holds fewer than `H` full rows of
`stride` bytes, the load fails on the truncated-pixels branch and no
plane is surrendered: the plane and the scratch row buffer are freed
and the file handle closed before the −1 return. -/
theorem C6_truncated_pixels (bs : List ℕ) (h54 : 54 ≤ bs.length)
    (hmagic : readLE bs 0 2 = 0x4D42) (hdepth : readLE bs 28 2 = 24)
    (hcomp : readLE bs 30 4 = 0) (hhgt : 1 ≤ parsedHeight bs)
    (hcnt : 0 < strideCnt bs)
    (hshort : bs.length < pixOffset bs + (parsedHeight bs).toNat * strideCnt bs) :
    (load bs).ret = -1 ∧ (load bs).err = some .truncatedPixels ∧
    (load bs).plane_freed = true ∧ (load bs).row_buf_freed = true ∧
    (load bs).file_closed = true := by
  rw [load_unfold bs h54 hmagic hdepth hcomp]
  rcases hrows : rowsGo bs (parsedWidth bs) (parsedHeight bs) (strideCnt bs)
      (pixOffset bs) 0 (parsedHeight bs).toNat
      (List.replicate (sizeT (allocSize (parsedWidth bs) (parsedHeight bs))) 0)
    with ⟨e?, pl⟩
  have hiff := rowsGo_none_iff bs (parsedWidth bs) (parsedHeight bs) (strideCnt bs)
    (parsedHeight bs).toNat (pixOffset bs) 0
    (List.replicate (sizeT (allocSize (parsedWidth bs) (parsedHeight bs))) 0)
  have hcases := rowsGo_fst_cases bs (parsedWidth bs) (parsedHeight bs) (strideCnt bs)
    (parsedHeight bs).toNat (pixOffset bs) 0
    (List.replicate (sizeT (allocSize (parsedWidth bs) (parsedHeight bs))) 0)
  rw [hrows] at hiff hcases
  cases e? with
  | none =>
    exfalso
    rcases hiff.mp rfl with h1 | h1 | h1
    · omega
    · omega
    · generalize (parsedHeight bs).toNat * strideCnt bs = m at *
      omega
  | some e =>
    have he : e = .truncatedPixels := by
      rcases hcases with h2 | h2
      · exact absurd h2 (by simp)
      · simpa using h2
    subst he
    exact ⟨rfl, rfl, rfl, rfl, rfl⟩

/-- C6 witness: 2×2 headers with only 3 pixel bytes. -/
theorem C6_truncated_pixels_witness :
    (load bmpShort).ret = -1 ∧ (load bmpShort).err = some .truncatedPixels ∧
    (load bmpShort).plane_freed = true ∧ (load bmpShort).row_buf_freed = true ∧
    (load bmpShort).file_closed = true :=
  C6_truncated_pixels bmpShort (by with_unfolding_all decide)
    (by with_unfolding_all decide) (by with_unfolding_all decide)
    (by with_unfolding_all decide) (by with_unfolding_all decide)
    (by with_unfolding_all decide) (by with_unfolding_all decide)

/-- C7: padding bytes (and any byte outside the header and the 3·W
pixel bytes of each of the H rows) never influence the outcome: two
files of equal length agreeing on the 54 header bytes and on every
pixel byte load identically. -/
theorem C7_padding_ignored (bs₁ bs₂ : List ℕ) (hlen : bs₁.length = bs₂.length)
    (hhdr : ∀ i, i < 54 → bs₁.getD i 0 = bs₂.getD i 0)
    (hpix : ∀ q, q < (parsedHeight bs₁).toNat → ∀ j, j < 3 * (parsedWidth bs₁).toNat →
      bs₁.getD (pixOffset bs₁ + q * strideCnt bs₁ + j) 0 =
        bs₂.getD (pixOffset bs₁ + q * strideCnt bs₁ + j) 0) :
    load bs₁ = load bs₂ := by
  have h02 := readLE_congr 2 0 (fun i hi => hhdr _ (by omega))
  have h28 := readLE_congr 2 28 (fun i hi => hhdr _ (by omega))
  have h30 := readLE_congr 4 30 (fun i hi => hhdr _ (by omega))
  have h18 := readLE_congr 4 18 (fun i hi => hhdr _ (by omega))
  have h22 := readLE_congr 4 22 (fun i hi => hhdr _ (by omega))
  have h10 := readLE_congr 4 10 (fun i hi => hhdr _ (by omega))
  refine load_congr bs₁ bs₂ hlen h02 h28 h30 ?_ ?_ h10 hpix
  · unfold parsedWidth
    rw [h18]
  · unfold parsedHeight parsedHeightRaw
    rw [h22]

/-- C7 witness: the checkerboard with garbage padding bytes loads to
the identical outcome. -/
theorem C7_padding_ignored_witness : load bmpChecker = load bmpCheckerPad :=
  C7_padding_ignored bmpChecker bmpCheckerPad (by with_unfolding_all decide)
    (by with_unfolding_all decide) (by with_unfolding_all decide)

/-- C8 counterexample: with two positional arguments (`argc = 3`) the
program does not print the usage line and exit — the check on line 144
only fires for `argc < 2`; surplus arguments are silently ignored. -/
theorem C8_counterexample : main_argc_check 3 = false := by decide

/-- C8 amended: the usage-and-exit-1 path is taken exactly when the
file-path argument is absent (`argc ≤ 1`); any invocation providing at
least one argument proceeds to the loader, extra arguments ignored. -/
theorem C8_amended_argc_check (argc : ℕ) : main_argc_check argc = true ↔ argc ≤ 1 := by
  unfold main_argc_check
  simp
  omega

/-- C9: on every failure after the info header parses (the row-buffer
allocation refusing, or a short row read — the only later failure
branches), the parsed dimensions have already been stored through the
out-parameters, and the image pointer was written with the (now freed)
plane and is not nulled on the way out; only the −1 return flags it. -/
theorem C9_out_params_on_late_failure (a2 : Bool) (bs : List ℕ)
    (h54 : 54 ≤ bs.length) (hmagic : readLE bs 0 2 = 0x4D42)
    (hdepth : readLE bs 28 2 = 24) (hcomp : readLE bs 30 4 = 0)
    (hfail : (load_bmp true a2 bs).ret = -1) :
    (load_bmp true a2 bs).width_out = some (parsedWidth bs) ∧
    (load_bmp true a2 bs).height_out = some (parsedHeight bs) ∧
    (∃ pl : List ℕ, (load_bmp true a2 bs).image_out = some (some pl)) ∧
    (load_bmp true a2 bs).plane_freed = true := by
  cases a2 with
  | false =>
    simp only [load_bmp]
    rw [if_neg (by omega), if_neg (fun hne => hne hmagic), if_neg (by omega),
      if_neg (fun hne => hne hdepth), if_neg (fun hne => hne hcomp),
      if_neg (by simp), if_pos trivial]
    exact ⟨rfl, rfl, ⟨_, rfl⟩, rfl⟩
  | true =>
    have hu : load_bmp true true bs = load bs := rfl
    rw [hu] at hfail ⊢
    rw [load_unfold bs h54 hmagic hdepth hcomp] at hfail ⊢
    rcases hrows : rowsGo bs (parsedWidth bs) (parsedHeight bs) (strideCnt bs)
        (pixOffset bs) 0 (parsedHeight bs).toNat
        (List.replicate (sizeT (allocSize (parsedWidth bs) (parsedHeight bs))) 0)
      with ⟨e?, pl⟩
    rw [hrows] at hfail
    cases e? with
    | none => simp at hfail
    | some e => exact ⟨rfl, rfl, ⟨pl, rfl⟩, rfl⟩

/-- C9 witness: the short-pixel 2×2 file with both allocations
succeeding. -/
theorem C9_out_params_witness :
    (load_bmp true true bmpShort).width_out = some (parsedWidth bmpShort) ∧
    (load_bmp true true bmpShort).height_out = some (parsedHeight bmpShort) ∧
    (∃ pl : List ℕ, (load_bmp true true bmpShort).image_out = some (some pl)) ∧
    (load_bmp true true bmpShort).plane_freed = true :=
  C9_out_params_on_late_failure true bmpShort (by with_unfolding_all decide)
    (by with_unfolding_all decide) (by with_unfolding_all decide)
    (by with_unfolding_all decide) (by with_unfolding_all decide)

/-- C10: the byte count handed to `malloc` on line 91 is the `int`
product `width * height`: it agrees with the mathematical product
modulo 2^32, it equals the product exactly when the product fits in
`[-2^31, 2^31)`, and whenever the product exceeds `2^31 − 1` the
requested count is the wrapped value, different from the product. -/
theorem C10_alloc_size (w hgt : ℤ) :
    allocSize w hgt % 2^32 = (w * hgt) % 2^32 ∧
    (2^31 - 1 < w * hgt → allocSize w hgt ≠ w * hgt) ∧
    (-2^31 ≤ w * hgt → w * hgt < 2^31 → allocSize w hgt = w * hgt) := by
  unfold allocSize wrap32
  generalize w * hgt = p
  refine ⟨?_, fun h => ?_, fun h1 h2 => ?_⟩ <;> omega

/-- C10 witness: 65536 × 65536 wraps to a zero-byte request. -/
theorem C10_alloc_size_witness :
    allocSize (2^16) (2^16) ≠ (2^16 : ℤ) * 2^16 ∧ allocSize (2^16) (2^16) = 0 :=
  ⟨(C10_alloc_size (2^16) (2^16)).2.1 (by norm_num), by decide⟩
